import Mathlib

/-!
Verification of the template-substitution engine of a mail-merge
application (`src/app.py`).  Strings are modelled as `List Char`
(Python strings are sequences of code points), Python sets as `Finset`,
Python dicts as association lists in insertion order, and the
python-docx document tree as an inductive forest of paragraphs, runs,
tables and sections.
-/

/-- Python's `str.isalnum` restricted to the ASCII range (the engine's
normalization is only required to provide basic case folding; Unicode
categories beyond ASCII are outside the model). -/
def pyIsAlnum (c : Char) : Bool :=
  (48 ≤ c.toNat && c.toNat ≤ 57) || (65 ≤ c.toNat && c.toNat ≤ 90) ||
    (97 ≤ c.toNat && c.toNat ≤ 122)

/-- Python's `str.lower`, character-wise, restricted to the ASCII range
(Unicode special casing is outside the model). -/
def pyLower (c : Char) : Char :=
  if 65 ≤ c.toNat ∧ c.toNat ≤ 90 then Char.ofNat (c.toNat + 32) else c

/-- Embedding of `normalize_text` (src/app.py line 16): keep only the
alphanumeric characters, then lower-case the result. -/
def normalize_text (text : List Char) : List Char :=
  (text.filter pyIsAlnum).map pyLower

/-- Embedding of Python's `full_text.find(old_text)` / `old_text in full_text`
(substring search): `findSub full old` is `some i` for the least `i` at which
`old` is a prefix of `full.drop i`, and `none` when `old` does not occur. -/
def findSub (full old : List Char) : Option Nat :=
  if old.isPrefixOf full then some 0
  else
    match full with
    | [] => none
    | _ :: rest => (findSub rest old).map (· + 1)

/-- A formatted run of text (python-docx `Run`): its text together with an
opaque formatting identity (font, style, ... — never inspected by the engine). -/
structure Run where
  text : List Char
  fmt : Nat
deriving DecidableEq

/-- A paragraph (python-docx `Paragraph`): an ordered list of runs. -/
structure Paragraph where
  runs : List Run
deriving DecidableEq

/-- Embedding of `get_full_text` (src/app.py line 23): concatenation of the
texts of a list of runs. -/
def get_full_text (runs : List Run) : List Char :=
  (runs.map Run.text).flatten

/-- One iteration of the run loop of `replace_text_in_paragraph`
(src/app.py lines 97-109): rewrite the text of the run starting at offset
`current_pos` given the match interval `[start_pos, end_pos)`. -/
def spliceRun (start_pos end_pos : Nat) (new_text run : List Char) (current_pos : Nat) :
    List Char :=
  let run_start := current_pos
  let run_end := run_start + run.length
  if run_start < end_pos ∧ run_end > start_pos then
    let overlap_start := max run_start start_pos
    let overlap_end := min run_end end_pos
    let keep_before := if overlap_start > run_start then run.take (overlap_start - run_start) else []
    let keep_after := if overlap_end < run_end then run.drop (overlap_end - run_start) else []
    if run_start ≤ start_pos ∧ start_pos < run_end then
      keep_before ++ new_text ++ keep_after
    else
      keep_before ++ keep_after
  else run

/-- The run loop of `replace_text_in_paragraph` over all runs, threading
`current_pos` exactly as the source does (offsets are computed from the
pre-mutation texts). -/
def replaceRunsAux (start_pos end_pos : Nat) (new_text : List Char) :
    List (List Char) → Nat → List (List Char)
  | [], _ => []
  | run :: rest, current_pos =>
    spliceRun start_pos end_pos new_text run current_pos ::
      replaceRunsAux start_pos end_pos new_text rest (current_pos + run.length)

/-- Embedding of `replace_text_in_paragraph` (src/app.py lines 90-109):
replace the first occurrence of `old_text` in the concatenated run texts by
`new_text`, mutating only run texts (formatting identities are untouched);
when `old_text` is absent the paragraph is returned unchanged. -/
def replace_text_in_paragraph (paragraph : Paragraph) (old_text new_text : List Char) :
    Paragraph :=
  let full_text := get_full_text paragraph.runs
  match findSub full_text old_text with
  | none => paragraph
  | some start_pos =>
    { runs := List.zipWith (fun run t => { run with text := t }) paragraph.runs
        (replaceRunsAux start_pos (start_pos + old_text.length) new_text
          (paragraph.runs.map Run.text) 0) }

/-- The non-greedy body of the token pattern `\{\{(.+?)\}\}` (src/app.py
line 22), entered just after a literal `{{`: consume the shortest non-empty
run of non-newline characters (`.` does not match a newline) that is
immediately followed by `}}`, returning the captured content and the
remainder after the closing braces. -/
def scanToken : List Char → Option (List Char × List Char)
  | [] => none
  | c :: rest =>
    if c = '\n' then none
    else if rest.take 2 = [ '}', '}'] then some ([c], rest.drop 2)
    else (scanToken rest).map fun pr => (c :: pr.1, pr.2)

/-- Fuelled scan of `re.findall(r'\{\{(.+?)\}\}', text)`: non-overlapping
leftmost matches; after a failed match attempt the scan advances one
character, after a successful match it resumes after the closing `}}`.
Fuel is consumed one unit per position, so `text.length` units suffice. -/
def findTokensF : Nat → List Char → List (List Char)
  | 0, _ => []
  | _ + 1, [] => []
  | fuel + 1, c :: rest =>
    if c = '{' then
      match rest with
      | c2 :: rest2 =>
        if c2 = '{' then
          match scanToken rest2 with
          | some (tok, rest3) => tok :: findTokensF fuel rest3
          | none => findTokensF fuel rest
        else findTokensF fuel rest
      | [] => []
    else findTokensF fuel rest

/-- Embedding of `re.findall(r'\{\{(.+?)\}\}', text)` as used by
`extract_placeholders` and the unreplaced-token rescan (src/app.py
lines 22 and 130): the captured token bodies, in match order. -/
def findTokens (text : List Char) : List (List Char) :=
  findTokensF text.length text

/-- First alternative `(?<!\{)\{[^}]*\}` of the malformed-brace pattern
(src/app.py line 50) attempted at the current position: an opening brace not
preceded by `{`, a greedy run of non-`}` characters, then a `}`. -/
def tryAlt1 (prev : Option Char) (s : List Char) : Option (List Char × List Char) :=
  if prev = some '{' then none
  else
    match s with
    | c :: rest =>
      if c = '{' then
        let body := rest.takeWhile (fun d => d != '}')
        match rest.drop body.length with
        | c2 :: tail => if c2 = '}' then some ( '{' :: body ++ [ '}'], tail) else none
        | [] => none
      else none
    | [] => none

/-- Second alternative `[^{]*\}[^{]*` of the malformed-brace pattern at the
current position: with backtracking it matches exactly the maximal `{`-free
run starting here, provided that run contains a `}`. -/
def tryAlt2 (s : List Char) : Option (List Char × List Char) :=
  let m := s.takeWhile (fun d => d != '{')
  if m.contains '}' then some (m, s.drop m.length) else none

/-- Fuelled scan of `re.findall(r'(?<!\{)\{[^}]*\}|[^{]*\}[^{]*', text)`:
at each position the first alternative is preferred; on failure of both the
scan advances one character.  `prev` is the character preceding the current
position in the original string (for the lookbehind). -/
def findallInvalidF : Nat → Option Char → List Char → List (List Char)
  | 0, _, _ => []
  | _ + 1, _, [] => []
  | fuel + 1, prev, c :: rest =>
    match tryAlt1 prev (c :: rest) with
    | some (m, r) => m :: findallInvalidF fuel m.getLast? r
    | none =>
      match tryAlt2 (c :: rest) with
      | some (m, r) => m :: findallInvalidF fuel m.getLast? r
      | none => findallInvalidF fuel (some c) rest

/-- Matches of the malformed-brace pattern over one string, scanned from the
start (no preceding character). -/
def findallInvalid (text : List Char) : List (List Char) :=
  findallInvalidF text.length none text

mutual
/-- A table (python-docx `Table`): a list of rows. -/
inductive Tbl : Type where
  | mk (rows : List TblRow) : Tbl
/-- A table row (python-docx `_Row`): a list of cells. -/
inductive TblRow : Type where
  | mk (cells : List TblCell) : TblRow
/-- A table cell (python-docx `_Cell`): its direct paragraphs and the tables
nested inside it (which the source never traverses). -/
inductive TblCell : Type where
  | mk (paragraphs : List Paragraph) (tables : List Tbl) : TblCell
end

def Tbl.rows : Tbl → List TblRow
  | .mk r => r

def TblRow.cells : TblRow → List TblCell
  | .mk c => c

def TblCell.paragraphs : TblCell → List Paragraph
  | .mk p _ => p

def TblCell.tables : TblCell → List Tbl
  | .mk _ t => t

/-- A document section (python-docx `Section`): the paragraphs of its header
and of its footer. -/
structure DocSection where
  header : List Paragraph
  footer : List Paragraph

/-- A document (python-docx `Document`): body paragraphs, top-level tables
and sections. -/
structure Doc where
  paragraphs : List Paragraph
  tables : List Tbl
  sections : List DocSection

/-- The paragraphs visited by every traversal of the source (each of
`extract_placeholders`, `find_invalid_braces`, `replace_placeholders` runs
the same four loops): body paragraphs, the direct paragraphs of the cells of
top-level tables, and the header and footer paragraphs of every section.
Paragraphs of tables nested inside cells are not visited. -/
def coveredParagraphs (doc : Doc) : List Paragraph :=
  doc.paragraphs ++
    doc.tables.flatMap
      (fun t => t.rows.flatMap (fun row => row.cells.flatMap (fun c => c.paragraphs))) ++
    doc.sections.flatMap (fun s => s.header ++ s.footer)

/-- Embedding of `extract_placeholders` (src/app.py lines 20-45): union of
the token bodies found in every visited paragraph's concatenated run text. -/
def extract_placeholders (doc : Doc) : Finset (List Char) :=
  ((coveredParagraphs doc).flatMap (fun p => findTokens (get_full_text p.runs))).toFinset

/-- Embedding of `find_invalid_braces` (src/app.py lines 48-67): union of
the malformed-brace pattern matches over every visited paragraph. -/
def find_invalid_braces (doc : Doc) : Finset (List Char) :=
  ((coveredParagraphs doc).flatMap (fun p => findallInvalid (get_full_text p.runs))).toFinset

/-- The literal marker `f"{{{{{placeholder}}}}}"` built by
`replace_placeholders` (src/app.py line 115): `{{` ++ placeholder ++ `}}`. -/
def placeholder_text (placeholder : List Char) : List Char :=
  '{' :: '{' :: (placeholder ++ [ '}', '}'])

/-- The fuzzy mapping: placeholder → (matched column or none, score), as an
association list in dict insertion order. -/
abbrev Mapping : Type := List (List Char × (Option (List Char) × Nat))

/-- Apply a paragraph transformation to every paragraph the source's
traversal visits (body, top-level table cells, headers and footers of all
sections); nested tables inside cells are left untouched, as in the source. -/
def docMapParas (f : Paragraph → Paragraph) (doc : Doc) : Doc :=
  { paragraphs := doc.paragraphs.map f,
    tables := doc.tables.map (fun t => Tbl.mk (t.rows.map (fun row =>
      TblRow.mk (row.cells.map (fun c => TblCell.mk (c.paragraphs.map f) c.tables))))),
    sections := doc.sections.map (fun s =>
      { header := s.header.map f, footer := s.footer.map f }) }

/-- Embedding of `replace_placeholders` (src/app.py lines 112-146): for each
mapping entry with a truthy column, replace the marker by the row value once
per visited paragraph (a single `replace_text_in_paragraph` call each — the
source has no repeat-until-no-op loop); then rescan every visited paragraph
for remaining `{{...}}` tokens, returning the document and that set. -/
def replace_placeholders (doc : Doc) (data : List Char → List Char) (mapping : Mapping) :
    Doc × Finset (List Char) :=
  let doc1 := mapping.foldl (fun d entry =>
    match entry.2.1 with
    | some column =>
      if column = [] then d
      else docMapParas (fun paragraph =>
        replace_text_in_paragraph paragraph (placeholder_text entry.1) (data column)) d
    | none => d) doc
  (doc1, ((coveredParagraphs doc1).flatMap (fun p => findTokens (get_full_text p.runs))).toFinset)

/-- Embedding of `generate_documents` (src/app.py lines 149-163): one record
per data row — the substituted document, the replaced and unreplaced token
sets, the unused columns and the malformed-brace strings.  Each row operates
on the shared immutable template (the source re-opens the template file per
row). -/
def generate_documents (rows : List (List Char → List Char)) (columns : List (List Char))
    (template : Doc) (mapping : Mapping) :
    List (Doc × Finset (List Char) × Finset (List Char) × Finset (List Char) ×
      Finset (List Char)) :=
  rows.map fun data =>
    let res := replace_placeholders template data mapping
    let unreplaced := res.2
    let replaced_placeholders := (mapping.map Prod.fst).toFinset \ unreplaced
    let used_columns := ((mapping.filter
        (fun entry => decide (entry.1 ∈ replaced_placeholders))).filterMap
      (fun entry => match entry.2.1 with
        | some c => if c = [] then none else some c
        | none => none)).toFinset
    let unused_columns := columns.toFinset \ used_columns
    (res.1, replaced_placeholders, unreplaced, unused_columns, find_invalid_braces res.1)

/-- Key list of the dict comprehension `{col: normalize_text(col) for col in
columns}` (src/app.py line 74): first occurrence of each key, in order (a
later duplicate key only overwrites the value, which is identical here). -/
def dictKeys (l : List (List Char)) : List (List Char) :=
  l.foldl (fun acc c => if c ∈ acc then acc else acc ++ [c]) []

/-- Embedding of `process.extractOne` of the external fuzzywuzzy library
(not code of this repository): the first choice attaining the maximal score
under the scorer, or `None` when the choice list is empty.  The scorer
(`fuzz.token_sort_ratio`, spec §4.2: token-sort similarity scored 0-100) is
kept as an opaque parameter. -/
def extractOne (scorer : List Char → List Char → Nat) (query : List Char)
    (choices : List (List Char)) : Option (List Char × Nat) :=
  match choices with
  | [] => none
  | c :: cs => some (cs.foldl
      (fun best ch => if scorer query ch > best.2 then (ch, scorer query ch) else best)
      (c, scorer query c))

/-- Embedding of `fuzzy_match_placeholders` (src/app.py lines 70-87),
parametric in the external scorer: per placeholder, normalize it and the
columns, take the best-scoring normalized column, gate at `threshold`
(below: entry `(none, 0)`), and reverse-look-up the first original column
whose normalization equals the best match.  The result is `none` exactly
when the tuple destructuring of `process.extractOne`'s result raises
(`extractOne` returned `None` because the column set is empty). -/
def fuzzy_match_placeholders (scorer : List Char → List Char → Nat)
    (placeholders columns : List (List Char)) (threshold : Nat) :
    Option Mapping :=
  match placeholders with
  | [] => some []
  | p :: rest =>
    let norm_placeholder := normalize_text p
    let norm_columns := (dictKeys columns).map (fun col => (col, normalize_text col))
    match extractOne scorer norm_placeholder (norm_columns.map Prod.snd) with
    | none => none
    | some (best_match, score) =>
      let entry : Mapping :=
        if score ≥ threshold then
          match norm_columns.find? (fun pr => pr.2 == best_match) with
          | some pr => [(p, (some pr.1, score))]
          | none => []
        else [(p, (none, 0))]
      (fuzzy_match_placeholders scorer rest columns threshold).map (fun m => entry ++ m)

theorem char_toNat_ofNat_valid (n : Nat) (h1 : n < 55296) : (Char.ofNat n).toNat = n := by
  have h2 : n.isValidChar := Or.inl h1
  simp only [Char.ofNat, h2, dif_pos, Char.ofNatAux, Char.toNat]
  simp only [UInt32.ofNat', UInt32.toNat]
  simp [BitVec.toNat_ofNat]

theorem pyLower_toNat (c : Char) :
    (pyLower c).toNat = if 65 ≤ c.toNat ∧ c.toNat ≤ 90 then c.toNat + 32 else c.toNat := by
  unfold pyLower
  split
  · next h => rw [char_toNat_ofNat_valid _ (by omega)]
  · next h => rfl

theorem pyLower_pyLower (c : Char) : pyLower (pyLower c) = pyLower c := by
  by_cases h : 65 ≤ c.toNat ∧ c.toNat ≤ 90
  · have ht : (pyLower c).toNat = c.toNat + 32 := by rw [pyLower_toNat, if_pos h]
    show (if _ then _ else _) = pyLower c
    rw [if_neg (by omega)]
  · show (if _ then _ else _) = pyLower c
    have hc : pyLower c = c := by unfold pyLower; rw [if_neg h]
    rw [hc, if_neg h]

theorem pyIsAlnum_pyLower (c : Char) : pyIsAlnum (pyLower c) = pyIsAlnum c := by
  unfold pyIsAlnum
  rw [pyLower_toNat]
  by_cases h : 65 ≤ c.toNat ∧ c.toNat ≤ 90
  · rw [if_pos h]
    have h1 : (48 ≤ c.toNat + 32 && c.toNat + 32 ≤ 57) = false := by
      simp only [Bool.and_eq_false_iff, decide_eq_false_iff_not]; omega
    have h2 : (65 ≤ c.toNat + 32 && c.toNat + 32 ≤ 90) = false := by
      simp only [Bool.and_eq_false_iff, decide_eq_false_iff_not]; omega
    have h3 : (97 ≤ c.toNat + 32 && c.toNat + 32 ≤ 122) = true := by
      simp only [Bool.and_eq_true, decide_eq_true_eq]; omega
    have h4 : (65 ≤ c.toNat && c.toNat ≤ 90) = true := by
      simp only [Bool.and_eq_true, decide_eq_true_eq]; omega
    rw [h1, h2, h3, h4]
    simp
  · rw [if_neg h]

/-- Claim C7: text normalization is idempotent: `normalize_text` strips every
non-alphanumeric character and lower-cases the remainder, and applying it
twice gives the same result as applying it once. -/
theorem normalize_text_idempotent (s : List Char) :
    normalize_text (normalize_text s) = normalize_text s := by
  unfold normalize_text
  rw [List.filter_map]
  have h1 : (List.filter pyIsAlnum s).filter (pyIsAlnum ∘ pyLower) =
      (List.filter pyIsAlnum s).filter pyIsAlnum :=
    List.filter_congr (fun c _ => by
      simp only [Function.comp_apply]; exact pyIsAlnum_pyLower c)
  rw [h1, List.filter_filter]
  have hfil : s.filter (fun a => pyIsAlnum a && pyIsAlnum a) = s.filter pyIsAlnum :=
    List.filter_congr (fun c _ => by cases pyIsAlnum c <;> rfl)
  rw [hfil, List.map_map]
  exact List.map_congr_left (fun c _ => by
    simp only [Function.comp_apply]; exact pyLower_pyLower c)

theorem spliceRun_eq (s e : Nat) (new r : List Char) (cur : Nat) (hse : s < e) :
    spliceRun s e new r cur =
      r.take (s - cur) ++ (if cur ≤ s ∧ s < cur + r.length then new else []) ++
        r.drop (e - cur) := by
  simp only [spliceRun]
  by_cases hov : cur < e ∧ cur + r.length > s
  · rw [if_pos hov]
    have hka : (if min (cur + r.length) e < cur + r.length then
        r.drop (min (cur + r.length) e - cur) else []) = r.drop (e - cur) := by
      rcases Nat.le_total e (cur + r.length) with h | h
      · rw [Nat.min_eq_right h]
        split
        · rfl
        · next h2 =>
          rw [eq_comm]
          exact List.drop_eq_nil_of_le (by omega)
      · rw [Nat.min_eq_left h, if_neg (by omega), eq_comm]
        exact List.drop_eq_nil_of_le (by omega)
    rcases Nat.lt_or_ge s cur with hlt | hge
    · simp only [if_neg (show ¬(cur ≤ s ∧ s < cur + r.length) by omega)]
      rw [if_neg (show ¬(max cur s > cur) by omega)]
      have h0 : s - cur = 0 := by omega
      rw [h0, List.take_zero, hka]
      simp
    · have hstart : cur ≤ s ∧ s < cur + r.length := ⟨hge, hov.2⟩
      simp only [if_pos hstart]
      rw [Nat.max_eq_right hge, hka]
      have hkb : (if s > cur then r.take (s - cur) else []) = r.take (s - cur) := by
        split
        · rfl
        · next h2 =>
          have h0 : s - cur = 0 := by omega
          rw [h0, List.take_zero]
      rw [hkb]
  · rw [if_neg hov]
    rcases not_and_or.mp hov with h | h
    · rw [if_neg (by omega)]
      have h1 : s - cur = 0 := by omega
      have h2 : e - cur = 0 := by omega
      rw [h1, h2, List.take_zero, List.drop_zero]
      simp
    · rw [if_neg (by omega)]
      rw [List.take_of_length_le (by omega), List.drop_eq_nil_of_le (by omega)]
      simp

theorem replaceRunsAux_join (s e : Nat) (new : List Char) (hse : s < e) :
    ∀ (runs : List (List Char)) (cur : Nat),
      (replaceRunsAux s e new runs cur).flatten =
        runs.flatten.take (s - cur) ++
          (if cur ≤ s ∧ s < cur + runs.flatten.length then new else []) ++
          runs.flatten.drop (e - cur)
  | [], cur => by
    simp only [replaceRunsAux, List.flatten_nil, List.take_nil, List.drop_nil,
      List.length_nil]
    rw [if_neg (by omega)]
    rfl
  | r :: rest, cur => by
    simp only [replaceRunsAux, List.flatten_cons]
    rw [spliceRun_eq s e new r cur hse,
      replaceRunsAux_join s e new hse rest (cur + r.length),
      List.take_append_eq_append_take, List.drop_append_eq_append_drop]
    simp only [List.length_append, Nat.sub_sub]
    rcases Nat.lt_or_ge s cur with h1 | h1
    · rw [if_neg (show ¬(cur ≤ s ∧ s < cur + r.length) by omega),
        if_neg (show ¬(cur + r.length ≤ s ∧ s < cur + r.length + rest.flatten.length) by omega),
        if_neg (show ¬(cur ≤ s ∧ s < cur + (r.length + rest.flatten.length)) by omega)]
      have h2 : s - cur = 0 := by omega
      have h3 : s - (cur + r.length) = 0 := by omega
      rw [h2, h3, List.take_zero, List.take_zero]
      simp
    · rcases Nat.lt_or_ge s (cur + r.length) with h2 | h2
      · rw [if_pos (show cur ≤ s ∧ s < cur + r.length from ⟨h1, h2⟩),
          if_neg (show ¬(cur + r.length ≤ s ∧ s < cur + r.length + rest.flatten.length) by omega),
          if_pos (show cur ≤ s ∧ s < cur + (r.length + rest.flatten.length) from ⟨h1, by omega⟩)]
        have h3 : s - (cur + r.length) = 0 := by omega
        rw [h3, List.take_zero]
        simp
      · rw [if_neg (show ¬(cur ≤ s ∧ s < cur + r.length) by omega),
          List.take_of_length_le (by omega), List.drop_eq_nil_of_le (by omega)]
        by_cases h3 : s < cur + (r.length + rest.flatten.length)
        · rw [if_pos (show cur + r.length ≤ s ∧ s < cur + r.length + rest.flatten.length
              from ⟨h2, by omega⟩),
            if_pos (show cur ≤ s ∧ s < cur + (r.length + rest.flatten.length) from ⟨h1, h3⟩)]
          simp
        · rw [if_neg (show ¬(cur + r.length ≤ s ∧ s < cur + r.length + rest.flatten.length)
              by omega),
            if_neg (show ¬(cur ≤ s ∧ s < cur + (r.length + rest.flatten.length)) by omega)]
          simp

theorem replaceRunsAux_length (s e : Nat) (new : List Char) :
    ∀ (runs : List (List Char)) (cur : Nat),
      (replaceRunsAux s e new runs cur).length = runs.length
  | [], _ => rfl
  | r :: rest, cur => by
    simp only [replaceRunsAux, List.length_cons,
      replaceRunsAux_length s e new rest (cur + r.length)]

theorem replaceRunsAux_getElem (s e : Nat) (new : List Char) :
    ∀ (runs : List (List Char)) (cur i : Nat),
      (replaceRunsAux s e new runs cur)[i]? =
        (runs[i]?).map (fun r => spliceRun s e new r (cur + (runs.take i).flatten.length))
  | [], cur, i => by simp [replaceRunsAux]
  | r :: rest, cur, 0 => by simp [replaceRunsAux]
  | r :: rest, cur, i + 1 => by
    simp only [replaceRunsAux, List.getElem?_cons_succ, List.take_succ_cons,
      List.flatten_cons, List.length_append]
    rw [replaceRunsAux_getElem s e new rest (cur + r.length) i]
    cases rest[i]? with
    | none => rfl
    | some t =>
      simp only [Option.map_some']
      congr 2
      omega

theorem infix_iff_exists_drop (old full : List Char) :
    old <:+: full ↔ ∃ i, old <+: full.drop i := by
  constructor
  · rintro ⟨pre, suf, h⟩
    refine ⟨pre.length, ?_⟩
    rw [← h, List.append_assoc, List.drop_left]
    exact ⟨suf, rfl⟩
  · rintro ⟨i, t, ht⟩
    exact ⟨full.take i, t, by rw [List.append_assoc, ht, List.take_append_drop]⟩

theorem findSub_eq_none_forall : ∀ full old : List Char,
    findSub full old = none ↔ ∀ i, ¬ old <+: full.drop i
  | [], old => by
    unfold findSub
    split
    · next h =>
      have hp : old <+: ([] : List Char) := List.isPrefixOf_iff_prefix.mp h
      constructor
      · intro hc; cases hc
      · intro hall; exact absurd hp (by simpa using hall 0)
    · next h =>
      constructor
      · intro _ i
        intro hp
        exact h (List.isPrefixOf_iff_prefix.mpr (by simpa using hp))
      · intro _; rfl
  | c :: rest, old => by
    unfold findSub
    split
    · next h =>
      constructor
      · intro hc; cases hc
      · intro hall
        exact absurd (List.isPrefixOf_iff_prefix.mp h) (by simpa using hall 0)
    · next h =>
      rw [Option.map_eq_none', findSub_eq_none_forall rest old]
      constructor
      · intro hall i
        cases i with
        | zero =>
          intro hp
          exact h (List.isPrefixOf_iff_prefix.mpr (by simpa using hp))
        | succ n =>
          rw [List.drop_succ_cons]
          exact hall n
      · intro hall i
        have := hall (i + 1)
        rw [List.drop_succ_cons] at this
        exact this

theorem findSub_eq_none_iff (full old : List Char) :
    findSub full old = none ↔ ¬ old <:+: full := by
  rw [findSub_eq_none_forall, infix_iff_exists_drop]
  push_neg
  rfl

theorem findSub_eq_some_of_first : ∀ (full old : List Char) (n : Nat),
    old <+: full.drop n → (∀ i, old <+: full.drop i → n ≤ i) →
    findSub full old = some n
  | full, old, 0, h1, _ => by
    unfold findSub
    rw [if_pos (List.isPrefixOf_iff_prefix.mpr (by simpa using h1))]
  | [], old, n + 1, h1, h2 => by
    exfalso
    have hp : old <+: ([] : List Char) := by simpa using h1
    have := h2 0 (by simpa using hp)
    omega
  | c :: rest, old, n + 1, h1, h2 => by
    unfold findSub
    rw [if_neg ?hneg]
    case hneg =>
      intro hp
      have := h2 0 (by simpa using List.isPrefixOf_iff_prefix.mp hp)
      omega
    show (findSub rest old).map (· + 1) = some (n + 1)
    rw [findSub_eq_some_of_first rest old n ?ha ?hb]
    · rfl
    case ha => simpa [List.drop_succ_cons] using h1
    case hb =>
      intro i hp
      have := h2 (i + 1) (by simpa [List.drop_succ_cons] using hp)
      omega

theorem zipWith_upd_getElem : ∀ (runs : List Run) (ts : List (List Char)) (i : Nat),
    (List.zipWith (fun run t => { run with text := t }) runs ts)[i]? =
      (runs[i]?).bind fun r => (ts[i]?).map fun t => { r with text := t }
  | [], ts, i => by simp
  | r :: rest, [], i => by simp
  | r :: rest, t :: ts, 0 => by simp
  | r :: rest, t :: ts, i + 1 => by
    simp only [List.zipWith_cons_cons, List.getElem?_cons_succ]
    exact zipWith_upd_getElem rest ts i

theorem replaced_runs_getElem (p : Paragraph) (s e : Nat) (new : List Char) (i : Nat) :
    (List.zipWith (fun run t => { run with text := t }) p.runs
        (replaceRunsAux s e new (p.runs.map Run.text) 0))[i]? =
      (p.runs[i]?).map fun r =>
        { r with text := spliceRun s e new r.text (get_full_text (p.runs.take i)).length } := by
  rw [zipWith_upd_getElem, replaceRunsAux_getElem, List.getElem?_map]
  cases hp : p.runs[i]? with
  | none => rfl
  | some r =>
    simp only [Option.map_some', Option.some_bind]
    congr 2
    rw [← List.map_take]
    simp [get_full_text]

theorem get_full_text_zipWith (runs : List Run) (ts : List (List Char))
    (h : runs.length = ts.length) :
    get_full_text (List.zipWith (fun run t => { run with text := t }) runs ts) = ts.flatten := by
  unfold get_full_text
  congr 1
  induction runs generalizing ts with
  | nil => cases ts with
    | nil => rfl
    | cons t ts => simp at h
  | cons r rest ih =>
    cases ts with
    | nil => simp at h
    | cons t ts =>
      simp only [List.zipWith_cons_cons, List.map_cons, List.cons.injEq]
      exact ⟨trivial, ih ts (by simpa using h)⟩

/-- Claim C1: for every paragraph whose concatenated run text decomposes as
`A ++ target ++ B` (with `target` non-empty and this its first occurrence),
and for any split of the text into runs at arbitrary boundaries,
`replace_text_in_paragraph` produces a paragraph whose concatenation equals
`A ++ R ++ B`; every run lying entirely outside the match offsets
`[matchStart, matchEnd)` keeps its text (and all runs their formatting
identity) unchanged, and the replacement text `R` is placed inside the run in
which the match starts. -/
theorem replace_text_in_paragraph_correct (p : Paragraph) (A target B R : List Char)
    (hjoin : get_full_text p.runs = A ++ target ++ B)
    (hne : target ≠ [])
    (hfirst : ∀ i < A.length, ¬ target <+: (A ++ target ++ B).drop i) :
    get_full_text (replace_text_in_paragraph p target R).runs = A ++ R ++ B ∧
    (replace_text_in_paragraph p target R).runs.length = p.runs.length ∧
    (∀ i : Nat, ((replace_text_in_paragraph p target R).runs[i]?).map Run.fmt =
      (p.runs[i]?).map Run.fmt) ∧
    (∀ i : Nat, ∀ r : Run, p.runs[i]? = some r →
      ((get_full_text (p.runs.take i)).length + r.text.length ≤ A.length ∨
        A.length + target.length ≤ (get_full_text (p.runs.take i)).length) →
      (replace_text_in_paragraph p target R).runs[i]? = some r) ∧
    (∀ i : Nat, ∀ r : Run, p.runs[i]? = some r →
      (get_full_text (p.runs.take i)).length ≤ A.length →
      A.length < (get_full_text (p.runs.take i)).length + r.text.length →
      (replace_text_in_paragraph p target R).runs[i]? = some
        { r with text :=
            r.text.take (A.length - (get_full_text (p.runs.take i)).length) ++ R ++
              r.text.drop (A.length + target.length -
                (get_full_text (p.runs.take i)).length) }) := by
  have htpos : 0 < target.length := List.length_pos.mpr hne
  have hse : A.length < A.length + target.length := by omega
  have hfind : findSub (get_full_text p.runs) target = some A.length := by
    rw [hjoin]
    apply findSub_eq_some_of_first
    · rw [List.append_assoc, List.drop_left]
      exact List.prefix_append target B
    · intro i hp
      by_contra hlt
      push_neg at hlt
      exact hfirst i hlt hp
  have hq : replace_text_in_paragraph p target R =
      { runs := List.zipWith (fun run t => { run with text := t }) p.runs
          (replaceRunsAux A.length (A.length + target.length) R (p.runs.map Run.text) 0) } := by
    simp only [replace_text_in_paragraph]
    rw [hfind]
  have hflat : (List.map Run.text p.runs).flatten = A ++ target ++ B := hjoin
  have htake : (A ++ target ++ B).take A.length = A := by
    rw [List.append_assoc]
    exact List.take_left A (target ++ B)
  have hdrop : (A ++ target ++ B).drop (A.length + target.length) = B := by
    rw [← List.length_append]
    exact List.drop_left (A ++ target) B
  refine ⟨?_, ?_, ?_, ?_, ?_⟩
  · rw [hq]
    rw [get_full_text_zipWith _ _ (by rw [replaceRunsAux_length]; simp)]
    rw [replaceRunsAux_join _ _ _ hse, hflat, Nat.sub_zero, Nat.sub_zero]
    rw [if_pos ?hg, htake, hdrop]
    case hg =>
      refine ⟨Nat.zero_le _, ?_⟩
      simp only [List.length_append]
      omega
  · rw [hq]
    show (List.zipWith _ _ _).length = _
    rw [List.length_zipWith, replaceRunsAux_length]
    simp
  · intro i
    rw [hq]
    show ((List.zipWith _ _ _)[i]?).map Run.fmt = _
    rw [replaced_runs_getElem]
    cases p.runs[i]? <;> simp
  · intro i r hr hcond
    rw [hq]
    show (List.zipWith _ _ _)[i]? = _
    rw [replaced_runs_getElem, hr]
    simp only [Option.map_some']
    congr 1
    rw [spliceRun_eq _ _ _ _ _ hse]
    rcases hcond with h | h
    · rw [List.take_of_length_le (by omega),
        if_neg (show ¬((get_full_text (p.runs.take i)).length ≤ A.length ∧
          A.length < (get_full_text (p.runs.take i)).length + r.text.length) by omega),
        List.drop_eq_nil_of_le (by omega)]
      simp
    · rw [if_neg (show ¬((get_full_text (p.runs.take i)).length ≤ A.length ∧
          A.length < (get_full_text (p.runs.take i)).length + r.text.length) by omega)]
      rw [show A.length - (get_full_text (p.runs.take i)).length = 0 by omega,
        show A.length + target.length - (get_full_text (p.runs.take i)).length = 0 by omega,
        List.take_zero, List.drop_zero]
      simp
  · intro i r hr h1 h2
    rw [hq]
    show (List.zipWith _ _ _)[i]? = _
    rw [replaced_runs_getElem, hr]
    simp only [Option.map_some']
    congr 1
    rw [spliceRun_eq _ _ _ _ _ hse]
    rw [if_pos ⟨h1, h2⟩]

/-- Concrete instance of claim C1: the paragraph with runs `"ab"` and `"cd"`,
target `"bc"` (so the match starts inside the first run and ends inside the
second), replacement `"xy"`. -/
theorem replace_text_in_paragraph_correct_witness :
    get_full_text (replace_text_in_paragraph
        ⟨[⟨[ 'a', 'b'], 0⟩, ⟨[ 'c', 'd'], 1⟩]⟩ [ 'b', 'c'] [ 'x', 'y']).runs =
      [ 'a', 'x', 'y', 'd'] := by
  have h := replace_text_in_paragraph_correct ⟨[⟨[ 'a', 'b'], 0⟩, ⟨[ 'c', 'd'], 1⟩]⟩
    [ 'a'] [ 'b', 'c'] [ 'd'] [ 'x', 'y'] (by decide) (by decide) (by decide)
  exact h.1

/-- Claim C9: replacement no-op safety: if the target text does not occur in
the concatenation of the paragraph's run texts, `replace_text_in_paragraph`
returns the paragraph with every run unchanged, for any replacement text. -/
theorem replace_text_in_paragraph_noop (p : Paragraph) (old_text new_text : List Char)
    (h : ¬ old_text <:+: get_full_text p.runs) :
    replace_text_in_paragraph p old_text new_text = p := by
  simp only [replace_text_in_paragraph]
  rw [(findSub_eq_none_iff _ _).mpr h]

/-- Concrete instance of claim C9: target `"zz"` is absent from `"abcd"`. -/
theorem replace_text_in_paragraph_noop_witness :
    replace_text_in_paragraph ⟨[⟨[ 'a', 'b'], 0⟩, ⟨[ 'c', 'd'], 1⟩]⟩ [ 'z', 'z'] [ 'q'] =
      ⟨[⟨[ 'a', 'b'], 0⟩, ⟨[ 'c', 'd'], 1⟩]⟩ :=
  replace_text_in_paragraph_noop _ _ _ (by decide)

theorem scanToken_some : ∀ (s tok rest : List Char), scanToken s = some (tok, rest) →
    s = tok ++ '}' :: '}' :: rest ∧ tok ≠ []
  | [], tok, rest, h => by simp [scanToken] at h
  | c :: s', tok, rest, h => by
    simp only [scanToken] at h
    split at h
    · cases h
    · split at h
      · next h2 =>
        have h3 := Option.some.inj h
        have htok : tok = [c] := (Prod.mk.injEq _ _ _ _ ▸ h3).1.symm
        have hrest : rest = s'.drop 2 := (Prod.mk.injEq _ _ _ _ ▸ h3).2.symm
        subst htok
        subst hrest
        refine ⟨?_, by simp⟩
        conv_lhs => rw [show c :: s' = c :: (s'.take 2 ++ s'.drop 2) by
          rw [List.take_append_drop]]
        rw [h2]
        rfl
      · next h2 =>
        rw [Option.map_eq_some'] at h
        obtain ⟨⟨tok', rest'⟩, hst, heq⟩ := h
        have htok : tok = c :: tok' := (Prod.mk.injEq _ _ _ _ ▸ heq).1.symm
        have hrest : rest = rest' := (Prod.mk.injEq _ _ _ _ ▸ heq).2.symm
        subst htok
        subst hrest
        have hd := scanToken_some s' tok' rest hst
        exact ⟨by rw [List.cons_append, hd.1], by simp⟩

theorem findTokensF_congr : ∀ (f1 f2 : Nat) (s : List Char),
    s.length ≤ f1 → s.length ≤ f2 → findTokensF f1 s = findTokensF f2 s
  | 0, f2, s, h1, h2 => by
    have hs : s = [] := List.eq_nil_of_length_eq_zero (by omega)
    subst hs
    cases f2 <;> rfl
  | f1 + 1, f2, s, h1, h2 => by
    cases s with
    | nil => cases f2 <;> rfl
    | cons c rest =>
      obtain ⟨f2p, rfl⟩ : ∃ f2p, f2 = f2p + 1 := ⟨f2 - 1, by simp at h2; omega⟩
      simp only [List.length_cons] at h1 h2
      by_cases hc : c = '{'
      · cases rest with
        | nil => simp only [findTokensF, if_pos hc]
        | cons c2 rest2 =>
          simp only [List.length_cons] at h1 h2
          by_cases hc2 : c2 = '{'
          · cases hst : scanToken rest2 with
            | none =>
              simp only [findTokensF, if_pos hc, if_pos hc2, hst]
              exact findTokensF_congr f1 f2p (c2 :: rest2)
                (by simp; omega) (by simp; omega)
            | some pr =>
              obtain ⟨tok, rest3⟩ := pr
              obtain ⟨hdec, hne⟩ := scanToken_some rest2 tok rest3 hst
              have hlen : rest2.length = tok.length + 2 + rest3.length := by
                rw [hdec]; simp; omega
              have htpos : 0 < tok.length := List.length_pos.mpr hne
              simp only [findTokensF, if_pos hc, if_pos hc2, hst]
              rw [findTokensF_congr f1 f2p rest3 (by omega) (by omega)]
          · simp only [findTokensF, if_pos hc, if_neg hc2]
            exact findTokensF_congr f1 f2p (c2 :: rest2)
              (by simp; omega) (by simp; omega)
      · simp only [findTokensF, if_neg hc]
        exact findTokensF_congr f1 f2p rest (by omega) (by omega)

theorem findTokensF_eq_findTokens (f : Nat) (s : List Char) (h : s.length ≤ f) :
    findTokensF f s = findTokens s :=
  findTokensF_congr f s.length s h le_rfl

theorem findTokens_cons_no_brace (c : Char) (hc : c ≠ '{') (s : List Char) :
    findTokens (c :: s) = findTokens s := by
  show findTokensF (c :: s).length (c :: s) = _
  simp only [List.length_cons, findTokensF, if_neg hc]
  rfl

theorem findTokens_append_no_brace (P s : List Char) (hP : ∀ c ∈ P, c ≠ '{') :
    findTokens (P ++ s) = findTokens s := by
  induction P with
  | nil => rfl
  | cons c P ih =>
    rw [List.cons_append, findTokens_cons_no_brace c (hP c (by simp)) (P ++ s)]
    exact ih (fun d hd => hP d (by simp [hd]))

theorem scanToken_cons (c : Char) (rest : List Char) :
    scanToken (c :: rest) = if c = '\n' then none
      else if rest.take 2 = [ '}', '}'] then some ([c], rest.drop 2)
      else (scanToken rest).map fun pr => (c :: pr.1, pr.2) := rfl

theorem findTokensF_cons2 (fuel : Nat) (c c2 : Char) (rest2 : List Char) :
    findTokensF (fuel + 2) (c :: c2 :: rest2) =
      if c = '{' then
        (if c2 = '{' then
          match scanToken rest2 with
          | some (tok, rest3) => tok :: findTokensF (fuel + 1) rest3
          | none => findTokensF (fuel + 1) (c2 :: rest2)
        else findTokensF (fuel + 1) (c2 :: rest2))
      else findTokensF (fuel + 1) (c2 :: rest2) := rfl

theorem scanToken_clean : ∀ (X : List Char), X ≠ [] →
    (∀ c ∈ X, c ≠ '}' ∧ c ≠ '\n') →
    ∀ Q : List Char, scanToken (X ++ '}' :: '}' :: Q) = some (X, Q)
  | [], hne, _, _ => absurd rfl hne
  | [x], _, hcl, Q => by
    rw [show ([x] ++ '}' :: '}' :: Q) = x :: ( '}' :: '}' :: Q) from rfl, scanToken_cons,
      if_neg (hcl x (by simp)).2,
      if_pos (show List.take 2 ( '}' :: '}' :: Q) = [ '}', '}'] from rfl)]
    rfl
  | x :: y :: X', _, hcl, Q => by
    have hy : y ≠ '}' := (hcl y (by simp)).1
    rw [show ((x :: y :: X') ++ '}' :: '}' :: Q) = x :: ((y :: X') ++ '}' :: '}' :: Q) from rfl,
      scanToken_cons, if_neg (hcl x (by simp)).2,
      if_neg (show ¬(((y :: X') ++ '}' :: '}' :: Q).take 2 = [ '}', '}']) from by
        simp only [List.cons_append, List.take_succ_cons, List.cons.injEq]
        intro hcontra
        exact hy hcontra.1),
      scanToken_clean (y :: X') (by simp) (fun d hd => hcl d (by simp at hd ⊢; tauto)) Q]
    rfl

theorem findTokens_token (X Q : List Char) (hX : X ≠ [])
    (hcl : ∀ c ∈ X, c ≠ '}' ∧ c ≠ '\n') :
    findTokens ( '{' :: '{' :: (X ++ '}' :: '}' :: Q)) = X :: findTokens Q := by
  show findTokensF ( '{' :: '{' :: (X ++ '}' :: '}' :: Q)).length _ = _
  rw [show ( '{' :: '{' :: (X ++ '}' :: '}' :: Q)).length =
    (X ++ '}' :: '}' :: Q).length + 2 from by simp]
  rw [findTokensF_cons2, if_pos rfl, if_pos rfl, scanToken_clean X hX hcl Q]
  show X :: findTokensF ((X ++ '}' :: '}' :: Q).length + 1) Q = X :: findTokens Q
  rw [findTokensF_eq_findTokens _ Q (by simp; omega)]

theorem coveredParagraphs_docMapParas (f : Paragraph → Paragraph) (doc : Doc) :
    coveredParagraphs (docMapParas f doc) = (coveredParagraphs doc).map f := by
  simp only [coveredParagraphs, docMapParas, List.map_append, List.flatMap_map,
    List.map_flatMap, Tbl.rows, TblRow.cells, TblCell.paragraphs, Function.comp]

theorem replace_placeholders_single (doc : Doc) (data : List Char → List Char)
    (T col : List Char) (sc : Nat) (hcol : col ≠ []) :
    replace_placeholders doc data [(T, (some col, sc))] =
      (docMapParas (fun paragraph =>
          replace_text_in_paragraph paragraph (placeholder_text T) (data col)) doc,
        ((coveredParagraphs (docMapParas (fun paragraph =>
            replace_text_in_paragraph paragraph (placeholder_text T) (data col))
              doc)).flatMap
          (fun p => findTokens (get_full_text p.runs))).toFinset) := by
  simp only [replace_placeholders, List.foldl_cons, List.foldl_nil]
  rw [if_neg hcol]

theorem replace_text_in_paragraph_join (p : Paragraph) (A target B new : List Char)
    (hjoin : get_full_text p.runs = A ++ target ++ B)
    (hne : target ≠ [])
    (hfirst : ∀ i < A.length, ¬ target <+: (A ++ target ++ B).drop i) :
    get_full_text (replace_text_in_paragraph p target new).runs = A ++ new ++ B := by
  have htpos : 0 < target.length := List.length_pos.mpr hne
  have hse : A.length < A.length + target.length := by omega
  have hfind : findSub (get_full_text p.runs) target = some A.length := by
    rw [hjoin]
    apply findSub_eq_some_of_first
    · rw [List.append_assoc, List.drop_left]
      exact List.prefix_append target B
    · intro i hp
      by_contra hlt
      push_neg at hlt
      exact hfirst i hlt hp
  have hq : replace_text_in_paragraph p target new =
      { runs := List.zipWith (fun run t => { run with text := t }) p.runs
          (replaceRunsAux A.length (A.length + target.length) new
            (p.runs.map Run.text) 0) } := by
    simp only [replace_text_in_paragraph]
    rw [hfind]
  rw [hq, get_full_text_zipWith _ _ (by rw [replaceRunsAux_length]; simp),
    replaceRunsAux_join _ _ _ hse,
    show (List.map Run.text p.runs).flatten = A ++ target ++ B from hjoin,
    Nat.sub_zero, Nat.sub_zero,
    if_pos (show 0 ≤ A.length ∧ A.length < 0 + (A ++ target ++ B).length from
      ⟨Nat.zero_le _, by simp only [List.length_append]; omega⟩)]
  rw [show (A ++ target ++ B).take A.length = A from by
      rw [List.append_assoc]; exact List.take_left A (target ++ B),
    show (A ++ target ++ B).drop (A.length + target.length) = B from by
      rw [← List.length_append]; exact List.drop_left (A ++ target) B]

theorem first_occ_of_no_brace (A B T : List Char) (hA : ∀ c ∈ A, c ≠ '{') :
    ∀ j < A.length, ¬ placeholder_text T <+: (A ++ placeholder_text T ++ B).drop j := by
  intro j hj hp
  obtain ⟨t, ht⟩ := hp
  have h1 : (placeholder_text T ++ t).head? = some '{' := rfl
  rw [ht, List.head?_drop, List.append_assoc, List.getElem?_append_left hj] at h1
  exact hA '{' (List.getElem?_mem h1) rfl

/-- Claim C5: the spec example holds (a container `"Price: {5} units"` is
reported as `{"{5}"}` and `find_invalid_braces` never modifies the document),
but the claimed equivalence "reported iff not part of a balanced double-brace
pair" contradicts the code: on a container holding exactly one well-formed
marker `{{name}}` the regex `(?<!\{)\{[^}]*\}|[^{]*\}[^{]*` matches
`{{name}` and `}` and the function reports both, against the code's own
comment "strings with { or } that are not placeholders". -/
theorem find_invalid_braces_flags_wellformed_marker :
    find_invalid_braces ⟨[⟨[⟨[ 'P', 'r', 'i', 'c', 'e', ':', ' ', '{', '5', '}',
        ' ', 'u', 'n', 'i', 't', 's'], 0⟩]⟩], [], []⟩ = {[ '{', '5', '}']} ∧
    findTokens (placeholder_text [ 'n', 'a', 'm', 'e']) = [[ 'n', 'a', 'm', 'e']] ∧
    find_invalid_braces ⟨[⟨[⟨placeholder_text [ 'n', 'a', 'm', 'e'], 0⟩]⟩], [], []⟩ =
      {[ '{', '{', 'n', 'a', 'm', 'e', '}'], [ '}']} := by
  decide

/-- Claim C4 (amended): token extraction and substitution cover exactly the
paragraphs the traversal visits — body paragraphs, the direct paragraphs of
cells of top-level tables, and the header/footer paragraphs of every section
(tables nested inside table cells are not visited): a token found in a
visited paragraph is in `extract_placeholders`, and for a mapped token the
substitution is applied to every visited paragraph (replacing the first
occurrence there). -/
theorem coverage_extract_and_replace :
    (∀ (doc : Doc) (p : Paragraph) (tok : List Char),
        p ∈ coveredParagraphs doc → tok ∈ findTokens (get_full_text p.runs) →
        tok ∈ extract_placeholders doc) ∧
    (∀ (doc : Doc) (data : List Char → List Char) (T col : List Char) (sc : Nat),
        col ≠ [] →
        ∀ (i : Nat) (p : Paragraph) (A B : List Char),
          (coveredParagraphs doc)[i]? = some p →
          get_full_text p.runs = A ++ placeholder_text T ++ B →
          (∀ j < A.length,
            ¬ placeholder_text T <+: (A ++ placeholder_text T ++ B).drop j) →
          ((coveredParagraphs
              (replace_placeholders doc data [(T, (some col, sc))]).1)[i]?).map
              (fun q => get_full_text q.runs) = some (A ++ data col ++ B)) := by
  constructor
  · intro doc p tok hp htok
    simp only [extract_placeholders, List.mem_toFinset, List.mem_flatMap]
    exact ⟨p, hp, htok⟩
  · intro doc data T col sc hcol i p A B hi htext hfirst
    rw [replace_placeholders_single doc data T col sc hcol]
    rw [show (Prod.mk (docMapParas (fun paragraph =>
        replace_text_in_paragraph paragraph (placeholder_text T) (data col)) doc) _).1 =
      docMapParas (fun paragraph =>
        replace_text_in_paragraph paragraph (placeholder_text T) (data col)) doc from rfl]
    rw [coveredParagraphs_docMapParas, List.getElem?_map, hi]
    simp only [Option.map_some']
    congr 1
    exact replace_text_in_paragraph_join p A (placeholder_text T) B (data col) htext
      (by simp [placeholder_text]) hfirst

/-- Concrete instance of the amended claim C4: a document whose single body
paragraph is exactly one `{{T}}` marker — the token is extracted and, mapped
to a column with value `"v"`, replaced there. -/
theorem coverage_extract_and_replace_witness :
    [ 'T'] ∈ extract_placeholders ⟨[⟨[⟨placeholder_text [ 'T'], 0⟩]⟩], [], []⟩ ∧
    ((coveredParagraphs (replace_placeholders ⟨[⟨[⟨placeholder_text [ 'T'], 0⟩]⟩], [], []⟩
        (fun _ => [ 'v']) [([ 'T'], (some [ 'c'], 90))]).1)[0]?).map
        (fun q => get_full_text q.runs) = some ([] ++ [ 'v'] ++ []) := by
  constructor
  · exact coverage_extract_and_replace.1 ⟨[⟨[⟨placeholder_text [ 'T'], 0⟩]⟩], [], []⟩
      ⟨[⟨placeholder_text [ 'T'], 0⟩]⟩ [ 'T'] (by decide) (by decide)
  · exact coverage_extract_and_replace.2 ⟨[⟨[⟨placeholder_text [ 'T'], 0⟩]⟩], [], []⟩
      (fun _ => [ 'v']) [ 'T'] [ 'c'] 90 (by decide) 0 ⟨[⟨placeholder_text [ 'T'], 0⟩]⟩
      [] [] (by decide) (by decide) (by decide)

/-- Counterexample to claim C4 as stated: a well-formed token `{{T}}` inside
a table nested in a top-level table's cell is a well-formed token of the
document tree, yet `extract_placeholders` misses it (the traversal never
descends into nested tables). -/
theorem extract_placeholders_misses_nested_tables :
    findTokens (get_full_text [⟨placeholder_text [ 'T'], 0⟩]) = [[ 'T']] ∧
    extract_placeholders ⟨[], [Tbl.mk [TblRow.mk [TblCell.mk []
        [Tbl.mk [TblRow.mk [TblCell.mk [⟨[⟨placeholder_text [ 'T'], 0⟩]⟩] []]]]]]], []⟩ =
      ∅ := by
  decide

/-- Claim C2 (amended): `replace_placeholders` calls the single-occurrence
splice once per visited container (there is no repeat-until-no-op loop), so
per container exactly the first occurrence of a mapped token's marker is
replaced: a container whose text holds the marker twice keeps the second
occurrence literally (and the token is then reported as unreplaced). -/
theorem replace_placeholders_first_occurrence_only
    (doc : Doc) (data : List Char → List Char) (T col : List Char) (sc : Nat)
    (hcol : col ≠ [])
    (i : Nat) (p : Paragraph) (A C D : List Char)
    (hi : (coveredParagraphs doc)[i]? = some p)
    (htext : get_full_text p.runs =
      A ++ placeholder_text T ++ (C ++ placeholder_text T ++ D))
    (hfirst : ∀ j < A.length, ¬ placeholder_text T <+:
      (A ++ placeholder_text T ++ (C ++ placeholder_text T ++ D)).drop j) :
    ((coveredParagraphs
        (replace_placeholders doc data [(T, (some col, sc))]).1)[i]?).map
        (fun q => get_full_text q.runs) =
      some (A ++ data col ++ (C ++ placeholder_text T ++ D)) := by
  rw [replace_placeholders_single doc data T col sc hcol]
  rw [show (Prod.mk (docMapParas (fun paragraph =>
      replace_text_in_paragraph paragraph (placeholder_text T) (data col)) doc) _).1 =
    docMapParas (fun paragraph =>
      replace_text_in_paragraph paragraph (placeholder_text T) (data col)) doc from rfl]
  rw [coveredParagraphs_docMapParas, List.getElem?_map, hi]
  simp only [Option.map_some']
  congr 1
  exact replace_text_in_paragraph_join p A (placeholder_text T)
    (C ++ placeholder_text T ++ D) (data col) htext (by simp [placeholder_text]) hfirst

/-- Concrete instance of the amended claim C2: in the single container
`"{{T}} {{T}}"` with value `"v"`, only the first occurrence is replaced. -/
theorem replace_placeholders_first_occurrence_only_witness :
    ((coveredParagraphs (replace_placeholders
        ⟨[⟨[⟨placeholder_text [ 'T'] ++ ' ' :: placeholder_text [ 'T'], 0⟩]⟩], [], []⟩
        (fun _ => [ 'v']) [([ 'T'], (some [ 'c'], 90))]).1)[0]?).map
        (fun q => get_full_text q.runs) =
      some ([] ++ [ 'v'] ++ ([ ' '] ++ placeholder_text [ 'T'] ++ [])) :=
  replace_placeholders_first_occurrence_only _ (fun _ => [ 'v']) [ 'T'] [ 'c'] 90
    (by decide) 0 ⟨[⟨placeholder_text [ 'T'] ++ ' ' :: placeholder_text [ 'T'], 0⟩]⟩
    [] [ ' '] [] (by decide) (by decide) (by decide)

/-- Counterexample to claim C2 as stated: with the marker `{{T}}` occurring
twice in one container and token `T` mapped, `replace_placeholders` leaves a
residual occurrence (the result text is `"v {{T}}"`) and reports `T` as
unreplaced — not "zero residual occurrences". -/
theorem replace_placeholders_leaves_residual_occurrence :
    ((coveredParagraphs (replace_placeholders
        ⟨[⟨[⟨placeholder_text [ 'T'] ++ ' ' :: placeholder_text [ 'T'], 0⟩]⟩], [], []⟩
        (fun _ => [ 'v']) [([ 'T'], (some [ 'c'], 90))]).1).map
        fun q => get_full_text q.runs) = [[ 'v', ' '] ++ placeholder_text [ 'T']] ∧
    (replace_placeholders
        ⟨[⟨[⟨placeholder_text [ 'T'] ++ ' ' :: placeholder_text [ 'T'], 0⟩]⟩], [], []⟩
        (fun _ => [ 'v']) [([ 'T'], (some [ 'c'], 90))]).2 = {[ 'T']} := by
  decide

/-- Claim C3 (amended): for a single-entry mapping the pass is single-pass:
the stringified field value is inserted verbatim — even when it contains a
well-formed marker `{{X}}` — and is not re-substituted; the inner token `X`
is then picked up by the rescan and reported as unreplaced.  (As the
counterexample shows, with several mapping entries a marker inserted by an
earlier entry IS substituted again when it names a later-processed token, so
the claim's "regardless of the order in which the mapping's entries are
processed" fails.) -/
theorem replace_placeholders_single_entry_literal
    (runsP : List Run) (T col X v1 v2 : List Char) (sc : Nat)
    (data : List Char → List Char)
    (hcol : col ≠ [])
    (hdata : data col = v1 ++ placeholder_text X ++ v2)
    (A B : List Char)
    (htext : get_full_text runsP = A ++ placeholder_text T ++ B)
    (hA : ∀ c ∈ A, c ≠ '{')
    (hv1 : ∀ c ∈ v1, c ≠ '{')
    (hX : X ≠ []) (hXcl : ∀ c ∈ X, c ≠ '}' ∧ c ≠ '\n') :
    ((coveredParagraphs (replace_placeholders ⟨[⟨runsP⟩], [], []⟩ data
        [(T, (some col, sc))]).1).map fun q => get_full_text q.runs) =
      [A ++ (v1 ++ placeholder_text X ++ v2) ++ B] ∧
    X ∈ (replace_placeholders ⟨[⟨runsP⟩], [], []⟩ data [(T, (some col, sc))]).2 := by
  have hfirst := first_occ_of_no_brace A B T hA
  have hjoin2 : get_full_text (replace_text_in_paragraph ⟨runsP⟩
      (placeholder_text T) (data col)).runs = A ++ data col ++ B :=
    replace_text_in_paragraph_join ⟨runsP⟩ A (placeholder_text T) B (data col) htext
      (by simp [placeholder_text]) hfirst
  rw [replace_placeholders_single _ _ _ _ _ hcol]
  constructor
  · rw [show (Prod.mk (docMapParas (fun paragraph =>
        replace_text_in_paragraph paragraph (placeholder_text T) (data col))
          ⟨[⟨runsP⟩], [], []⟩) _).1 =
      docMapParas (fun paragraph =>
        replace_text_in_paragraph paragraph (placeholder_text T) (data col))
          ⟨[⟨runsP⟩], [], []⟩ from rfl]
    rw [coveredParagraphs_docMapParas,
      show coveredParagraphs ⟨[⟨runsP⟩], [], []⟩ = [⟨runsP⟩] from rfl]
    simp only [List.map_cons, List.map_nil]
    rw [hjoin2, hdata]
  · show X ∈ (List.flatMap _ _).toFinset
    simp only [List.mem_toFinset, List.mem_flatMap]
    refine ⟨replace_text_in_paragraph ⟨runsP⟩ (placeholder_text T) (data col), ?_, ?_⟩
    · rw [coveredParagraphs_docMapParas,
        show coveredParagraphs ⟨[⟨runsP⟩], [], []⟩ = [⟨runsP⟩] from rfl]
      simp
    · rw [hjoin2, hdata]
      have hre : A ++ (v1 ++ placeholder_text X ++ v2) ++ B =
          (A ++ v1) ++ ( '{' :: '{' :: (X ++ '}' :: '}' :: (v2 ++ B))) := by
        simp [placeholder_text]
      rw [hre, findTokens_append_no_brace _ _ (fun c hc => by
          rcases List.mem_append.mp hc with h | h
          exacts [hA c h, hv1 c h]),
        findTokens_token X (v2 ++ B) hX hXcl]
      simp

/-- Concrete instance of the amended claim C3: single mapping entry
`T → c`, value `"u" ++ {{X}} ++ "w"`; the inserted marker stays literal and
`X` is reported unreplaced. -/
theorem replace_placeholders_single_entry_literal_witness :
    ((coveredParagraphs (replace_placeholders ⟨[⟨[⟨placeholder_text [ 'T'], 0⟩]⟩], [], []⟩
        (fun _ => [ 'u'] ++ placeholder_text [ 'X'] ++ [ 'w'])
        [([ 'T'], (some [ 'c'], 90))]).1).map fun q => get_full_text q.runs) =
      [[] ++ ([ 'u'] ++ placeholder_text [ 'X'] ++ [ 'w']) ++ []] ∧
    [ 'X'] ∈ (replace_placeholders ⟨[⟨[⟨placeholder_text [ 'T'], 0⟩]⟩], [], []⟩
        (fun _ => [ 'u'] ++ placeholder_text [ 'X'] ++ [ 'w'])
        [([ 'T'], (some [ 'c'], 90))]).2 :=
  replace_placeholders_single_entry_literal [⟨placeholder_text [ 'T'], 0⟩]
    [ 'T'] [ 'c'] [ 'X'] [ 'u'] [ 'w'] 90
    (fun _ => [ 'u'] ++ placeholder_text [ 'X'] ++ [ 'w'])
    (by decide) (by decide) [] [] (by decide) (by decide) (by decide)
    (by decide) (by decide)

/-- Counterexample to claim C3 as stated: mapping `A → ca`, `B → cb`
processed in that order, row values `ca = "{{B}}"`, `cb = "Z"`; substituting
`{{A}}` inserts the marker `{{B}}`, which the later entry `B` then
substitutes again — the final text is `"Z"`, the inserted marker did not
remain literal, and nothing is reported unreplaced. -/
theorem inserted_marker_is_resubstituted :
    ((coveredParagraphs (replace_placeholders ⟨[⟨[⟨placeholder_text [ 'A'], 0⟩]⟩], [], []⟩
        (fun c => if c = [ 'c', 'a'] then placeholder_text [ 'B'] else [ 'Z'])
        [([ 'A'], (some [ 'c', 'a'], 90)), ([ 'B'], (some [ 'c', 'b'], 90))]).1).map
        fun q => get_full_text q.runs) = [[ 'Z']] ∧
    (replace_placeholders ⟨[⟨[⟨placeholder_text [ 'A'], 0⟩]⟩], [], []⟩
        (fun c => if c = [ 'c', 'a'] then placeholder_text [ 'B'] else [ 'Z'])
        [([ 'A'], (some [ 'c', 'a'], 90)), ([ 'B'], (some [ 'c', 'b'], 90))]).2 = ∅ := by
  decide

theorem extractOne_fold_spec (scorer : List Char → List Char → Nat) (q : List Char) :
    ∀ (cs : List (List Char)) (best r : List Char × Nat),
      scorer q best.1 = best.2 →
      cs.foldl (fun b ch => if scorer q ch > b.2 then (ch, scorer q ch) else b) best = r →
      scorer q r.1 = r.2 ∧ (r = best ∨ r.1 ∈ cs) ∧ best.2 ≤ r.2 ∧
        ∀ ch ∈ cs, scorer q ch ≤ r.2
  | [], best, r, h, hr => by
    subst hr
    exact ⟨h, Or.inl rfl, le_rfl, by simp⟩
  | ch :: cs, best, r, h, hr => by
    simp only [List.foldl_cons] at hr
    by_cases hgt : scorer q ch > best.2
    · rw [if_pos hgt] at hr
      obtain ⟨h1, h2, h3, h4⟩ := extractOne_fold_spec scorer q cs (ch, scorer q ch) r rfl hr
      refine ⟨h1, ?_, by omega, ?_⟩
      · rcases h2 with h2 | h2
        · exact Or.inr (by rw [h2]; exact List.mem_cons_self ch cs)
        · exact Or.inr (List.mem_cons_of_mem ch h2)
      · intro c2 hc2
        rcases List.mem_cons.mp hc2 with rfl | hmem
        · exact h3
        · exact h4 c2 hmem
    · rw [if_neg hgt] at hr
      obtain ⟨h1, h2, h3, h4⟩ := extractOne_fold_spec scorer q cs best r h hr
      refine ⟨h1, ?_, h3, ?_⟩
      · rcases h2 with h2 | h2
        exacts [Or.inl h2, Or.inr (List.mem_cons_of_mem ch h2)]
      · intro c2 hc2
        rcases List.mem_cons.mp hc2 with rfl | hmem
        · omega
        · exact h4 c2 hmem

theorem extractOne_spec (scorer : List Char → List Char → Nat) (q : List Char)
    (choices : List (List Char)) (b : List Char) (s : Nat)
    (h : extractOne scorer q choices = some (b, s)) :
    b ∈ choices ∧ scorer q b = s ∧ ∀ ch ∈ choices, scorer q ch ≤ s := by
  cases choices with
  | nil => simp [extractOne] at h
  | cons c cs =>
    simp only [extractOne] at h
    have h2 := Option.some.inj h
    obtain ⟨h1, hmem, hbase, hub⟩ :=
      extractOne_fold_spec scorer q cs (c, scorer q c) (b, s) rfl h2
    refine ⟨?_, h1, ?_⟩
    · rcases hmem with he | hm
      · rw [show b = c from congrArg Prod.fst he]
        exact List.mem_cons_self c cs
      · exact List.mem_cons_of_mem c hm
    · intro ch hch
      rcases List.mem_cons.mp hch with rfl | hm
      · exact hbase
      · exact hub ch hm

theorem extractOne_isSome (scorer : List Char → List Char → Nat) (q : List Char)
    (choices : List (List Char)) (h : choices ≠ []) :
    ∃ b s, extractOne scorer q choices = some (b, s) := by
  cases choices with
  | nil => exact absurd rfl h
  | cons c cs => exact ⟨_, _, rfl⟩

theorem foldl_dict_mem : ∀ (l acc : List (List Char)) (c : List Char),
    c ∈ l.foldl (fun acc c => if c ∈ acc then acc else acc ++ [c]) acc →
    c ∈ acc ∨ c ∈ l
  | [], _, _, h => Or.inl h
  | x :: l, acc, c, h => by
    simp only [List.foldl_cons] at h
    rcases foldl_dict_mem l _ c h with h2 | h2
    · by_cases hx : x ∈ acc
      · rw [if_pos hx] at h2
        exact Or.inl h2
      · rw [if_neg hx] at h2
        rcases List.mem_append.mp h2 with h3 | h3
        · exact Or.inl h3
        · simp at h3
          subst h3
          exact Or.inr (List.mem_cons_self c l)
    · exact Or.inr (List.mem_cons_of_mem x h2)

theorem dictKeys_subset (l : List (List Char)) (c : List Char) (h : c ∈ dictKeys l) :
    c ∈ l := by
  rcases foldl_dict_mem l [] c h with h2 | h2
  · simp at h2
  · exact h2

theorem foldl_dict_ne_nil : ∀ (l acc : List (List Char)), acc ≠ [] →
    l.foldl (fun acc c => if c ∈ acc then acc else acc ++ [c]) acc ≠ []
  | [], _, h => h
  | x :: l, acc, h => by
    simp only [List.foldl_cons]
    apply foldl_dict_ne_nil l _
    by_cases hx : x ∈ acc
    · rw [if_pos hx]
      exact h
    · rw [if_neg hx]
      simp

theorem dictKeys_ne_nil (l : List (List Char)) (h : l ≠ []) : dictKeys l ≠ [] := by
  cases l with
  | nil => exact absurd rfl h
  | cons x l =>
    simp only [dictKeys, List.foldl_cons]
    apply foldl_dict_ne_nil
    rw [if_neg (by simp)]
    simp

theorem fuzzy_match_cons (scorer : List Char → List Char → Nat) (p0 : List Char)
    (rest columns : List (List Char)) (threshold : Nat) (b : List Char) (s : Nat)
    (hex : extractOne scorer (normalize_text p0)
      (((dictKeys columns).map (fun col => (col, normalize_text col))).map Prod.snd) =
        some (b, s))
    (m' : Mapping)
    (hm' : fuzzy_match_placeholders scorer rest columns threshold = some m') :
    fuzzy_match_placeholders scorer (p0 :: rest) columns threshold = some
      ((if s ≥ threshold then
          match ((dictKeys columns).map (fun col => (col, normalize_text col))).find?
              (fun pr => pr.2 == b) with
          | some pr => [(p0, (some pr.1, s))]
          | none => []
        else [(p0, (none, 0))]) ++ m') := by
  simp only [fuzzy_match_placeholders]
  rw [hex, hm']
  rfl

theorem fuzzy_match_total (scorer : List Char → List Char → Nat) :
    ∀ (placeholders : List (List Char)) (columns : List (List Char)) (threshold : Nat),
    columns ≠ [] →
    ∃ m, fuzzy_match_placeholders scorer placeholders columns threshold = some m ∧
      ∀ p ∈ placeholders, ∃ v, (p, v) ∈ m
  | [], _, _, _ => ⟨[], rfl, by simp⟩
  | p0 :: rest, columns, threshold, h => by
    have hch : (((dictKeys columns).map (fun col => (col, normalize_text col))).map
        Prod.snd) ≠ [] := by
      intro hc
      apply dictKeys_ne_nil columns h
      have h1 := congrArg List.length hc
      simp at h1
      exact h1
    obtain ⟨b, s, hbs⟩ := extractOne_isSome scorer (normalize_text p0) _ hch
    obtain ⟨m', hm', hall⟩ := fuzzy_match_total scorer rest columns threshold h
    refine ⟨_, fuzzy_match_cons scorer p0 rest columns threshold b s hbs m' hm', ?_⟩
    intro p hp
    rcases List.mem_cons.mp hp with rfl | hmem
    · by_cases hth : s ≥ threshold
      · obtain ⟨hbmem, _, _⟩ := extractOne_spec scorer (normalize_text p) _ b s hbs
        have hexm : ∃ pr ∈ ((dictKeys columns).map (fun col => (col, normalize_text col))),
            (pr.2 == b) = true := by
          obtain ⟨pr, hprm, hpr2⟩ := List.mem_map.mp hbmem
          exact ⟨pr, hprm, by simp [hpr2]⟩
        obtain ⟨pr, hprfind⟩ :=
          Option.isSome_iff_exists.mp (List.find?_isSome.mpr hexm)
        refine ⟨(some pr.1, s), ?_⟩
        rw [if_pos hth, hprfind]
        simp
      · refine ⟨(none, 0), ?_⟩
        rw [if_neg hth]
        simp
    · obtain ⟨v, hv⟩ := hall p hmem
      exact ⟨v, List.mem_append_right _ hv⟩

/-- Claim C6: with threshold 85, every placeholder (given a non-empty column
set) is mapped to `(none, 0)` when the best scorer value between the
normalized placeholder and the normalized columns is below 85, and otherwise
to `(c, best)` where `c` is an original column whose normalization attains
that best score.  The external token-sort scorer is an opaque parameter, so
this holds for any scorer backend. -/
theorem fuzzy_match_threshold_gate (scorer : List Char → List Char → Nat)
    (placeholders columns : List (List Char)) (hcols : columns ≠ [])
    (p : List Char) (hp : p ∈ placeholders) :
    ∃ m, fuzzy_match_placeholders scorer placeholders columns 85 = some m ∧
      ∃ best : Nat,
        (∃ c0 ∈ dictKeys columns,
          scorer (normalize_text p) (normalize_text c0) = best) ∧
        (∀ c0 ∈ dictKeys columns,
          scorer (normalize_text p) (normalize_text c0) ≤ best) ∧
        (best < 85 → (p, (none, 0)) ∈ m) ∧
        (85 ≤ best → ∃ c ∈ columns,
          scorer (normalize_text p) (normalize_text c) = best ∧
          (p, (some c, best)) ∈ m) := by
  induction placeholders with
  | nil => cases hp
  | cons p0 rest ih =>
    have hch : (((dictKeys columns).map (fun col => (col, normalize_text col))).map
        Prod.snd) ≠ [] := by
      intro hc
      apply dictKeys_ne_nil columns hcols
      have h1 := congrArg List.length hc
      simp at h1
      exact h1
    obtain ⟨b, s, hbs⟩ := extractOne_isSome scorer (normalize_text p0) _ hch
    rcases List.mem_cons.mp hp with rfl | hmem
    · obtain ⟨m', hm', _⟩ := fuzzy_match_total scorer rest columns 85 hcols
      obtain ⟨hbmem, hbs_eq, hub⟩ := extractOne_spec scorer (normalize_text p) _ b s hbs
      have hchoices :
          (((dictKeys columns).map (fun col => (col, normalize_text col))).map Prod.snd) =
            (dictKeys columns).map normalize_text := by
        rw [List.map_map]
        rfl
      rw [hchoices] at hbmem hub
      obtain ⟨c0b, hc0bmem, hc0beq⟩ := List.mem_map.mp hbmem
      have hattain : scorer (normalize_text p) (normalize_text c0b) = s := by
        rw [hc0beq]
        exact hbs_eq
      have hubkeys : ∀ c0 ∈ dictKeys columns,
          scorer (normalize_text p) (normalize_text c0) ≤ s :=
        fun c0 hc0 => hub _ (List.mem_map_of_mem _ hc0)
      by_cases hth : s ≥ 85
      · have hexm : ∃ pr ∈ ((dictKeys columns).map (fun col => (col, normalize_text col))),
            (pr.2 == b) = true :=
          ⟨(c0b, normalize_text c0b), List.mem_map_of_mem _ hc0bmem, by simp [hc0beq]⟩
        obtain ⟨pr, hprfind⟩ := Option.isSome_iff_exists.mp (List.find?_isSome.mpr hexm)
        have hprmem := List.mem_of_find?_eq_some hprfind
        have hpreq : pr.2 = b := by
          have := List.find?_some hprfind
          simpa using this
        obtain ⟨c1, hc1mem, hc1eq⟩ := List.mem_map.mp hprmem
        refine ⟨_, fuzzy_match_cons scorer p rest columns 85 b s hbs m' hm', s,
          ⟨c0b, hc0bmem, hattain⟩, hubkeys, by omega, ?_⟩
        intro _
        refine ⟨pr.1, dictKeys_subset columns pr.1 ?_, ?_, ?_⟩
        · rw [show pr.1 = c1 from by rw [← hc1eq]] at *
          exact hc1mem
        · have hn : normalize_text pr.1 = pr.2 := by rw [← hc1eq]
          rw [hn, hpreq]
          exact hbs_eq
        · rw [if_pos hth, hprfind]
          simp
      · refine ⟨_, fuzzy_match_cons scorer p rest columns 85 b s hbs m' hm', s,
          ⟨c0b, hc0bmem, hattain⟩, hubkeys, ?_, by omega⟩
        intro _
        rw [if_neg hth]
        simp
    · obtain ⟨m2, hm2, best, hatt, hub2, hlo, hhi⟩ := ih hmem
      refine ⟨_, fuzzy_match_cons scorer p0 rest columns 85 b s hbs m2 hm2, best,
        hatt, hub2, ?_, ?_⟩
      · intro h
        exact List.mem_append_right _ (hlo h)
      · intro h
        obtain ⟨c, hc1, hc2, hc3⟩ := hhi h
        exact ⟨c, hc1, hc2, List.mem_append_right _ hc3⟩

/-- Concrete instance of claim C6: placeholder `"N"` against columns
`["N", "M"]` with an equality scorer. -/
theorem fuzzy_match_threshold_gate_witness :
    ∃ m, fuzzy_match_placeholders (fun a b => if a = b then 100 else 0)
        [[ 'N']] [[ 'N'], [ 'M']] 85 = some m ∧
      ∃ best : Nat,
        (∃ c0 ∈ dictKeys [[ 'N'], [ 'M']],
          (fun a b => if a = b then 100 else 0)
            (normalize_text [ 'N']) (normalize_text c0) = best) ∧
        (∀ c0 ∈ dictKeys [[ 'N'], [ 'M']],
          (fun a b => if a = b then 100 else 0)
            (normalize_text [ 'N']) (normalize_text c0) ≤ best) ∧
        (best < 85 → ([ 'N'], (none, 0)) ∈ m) ∧
        (85 ≤ best → ∃ c ∈ [[ 'N'], [ 'M']],
          (fun a b => if a = b then 100 else 0)
            (normalize_text [ 'N']) (normalize_text c) = best ∧
          ([ 'N'], (some c, best)) ∈ m) :=
  fuzzy_match_threshold_gate (fun a b => if a = b then 100 else 0)
    [[ 'N']] [[ 'N'], [ 'M']] (by decide) [ 'N'] (by decide)

/-- Claim C10: `fuzzy_match_placeholders` is total only when the column set
is non-empty or there are no placeholders: with at least one placeholder and
zero columns `process.extractOne` returns `None` and the destructuring
raises (modelled as `none`); with a non-empty column set every placeholder
receives a mapping entry and the error branch is unreachable. -/
theorem fuzzy_match_empty_columns_errors :
    (∀ (scorer : List Char → List Char → Nat) (p : List Char)
        (rest : List (List Char)) (threshold : Nat),
      fuzzy_match_placeholders scorer (p :: rest) [] threshold = none) ∧
    (∀ (scorer : List Char → List Char → Nat)
        (placeholders columns : List (List Char)) (threshold : Nat),
      columns ≠ [] →
      ∃ m, fuzzy_match_placeholders scorer placeholders columns threshold = some m ∧
        ∀ p ∈ placeholders, ∃ v, (p, v) ∈ m) :=
  ⟨fun _ _ _ _ => rfl,
   fun scorer placeholders columns threshold h =>
    fuzzy_match_total scorer placeholders columns threshold h⟩

/-- Concrete instance of claim C10: one placeholder and zero columns errors;
one placeholder and one column succeeds with an entry for the placeholder. -/
theorem fuzzy_match_empty_columns_errors_witness :
    fuzzy_match_placeholders (fun _ _ => 0) [[ 'p']] [] 85 = none ∧
    ∃ m, fuzzy_match_placeholders (fun _ _ => 0) [[ 'p']] [[ 'c']] 85 = some m ∧
      ∀ q ∈ [[ 'p']], ∃ v, (q, v) ∈ m :=
  ⟨fuzzy_match_empty_columns_errors.1 (fun _ _ => 0) [ 'p'] [] 85,
   fuzzy_match_empty_columns_errors.2 (fun _ _ => 0) [[ 'p']] [[ 'c']] 85 (by decide)⟩

/-- Claim C8: unused-field accounting — for every row, the reported unused
columns are exactly the full column set minus the resolved fields of
replaced tokens: `unused = FieldSet \ set of fields e.2.1 = some c of
mapping entries whose token is in replacedSet`, where
`replacedSet = mapping keys \ unreplaced`.  (The hypothesis excludes the
degenerate empty-string column name, which Python's truthiness test
`if mapping[p][0]` would also drop.) -/
theorem generate_documents_unused_fields
    (columns : List (List Char)) (template : Doc) (mapping : Mapping)
    (hfields : ∀ e ∈ mapping, e.2.1 ≠ some [])
    (rows : List (List Char → List Char)) (data : List Char → List Char)
    (i : Nat) (hdata : rows[i]? = some data) :
    ((generate_documents rows columns template mapping)[i]?).map
        (fun out => out.2.2.2.1) =
      some (columns.toFinset.filter
        (fun c => ¬ ∃ e ∈ mapping,
          e.1 ∈ (mapping.map Prod.fst).toFinset \
            (replace_placeholders template data mapping).2 ∧
          e.2.1 = some c)) := by
  simp only [generate_documents, List.getElem?_map, hdata, Option.map_some']
  congr 1
  ext c
  simp only [Finset.mem_sdiff, Finset.mem_filter, List.mem_toFinset, List.mem_filterMap,
    List.mem_filter, decide_eq_true_eq]
  constructor
  · rintro ⟨hcol, hnot⟩
    refine ⟨hcol, ?_⟩
    rintro ⟨e, hem, hrep, hfield⟩
    apply hnot
    refine ⟨e, ⟨hem, hrep⟩, ?_⟩
    rw [hfield]
    have hc : c ≠ [] := by
      intro hx
      exact hfields e hem (by rw [hfield, hx])
    simp only [if_neg hc]
  · rintro ⟨hcol, hpred⟩
    refine ⟨hcol, ?_⟩
    rintro ⟨e, ⟨hem, hrep⟩, hfo⟩
    apply hpred
    refine ⟨e, hem, hrep, ?_⟩
    cases hcase : e.2.1 with
    | none => rw [hcase] at hfo; cases hfo
    | some c2 =>
      rw [hcase] at hfo
      have hfo2 : (if c2 = [] then none else some c2) = some c := hfo
      by_cases hc2 : c2 = []
      · rw [if_pos hc2] at hfo2; cases hfo2
      · rw [if_neg hc2] at hfo2
        exact hfo2

/-- Concrete instance of claim C8, the spec's example: FieldSet
`{A, B, C}`, only token `A` mapped (to column `A`) and replaced; the
reported unused set is the claimed set difference (which evaluates to
`{B, C}`). -/
theorem generate_documents_unused_fields_witness :
    ((generate_documents [fun _ => [ 'v']] [[ 'A'], [ 'B'], [ 'C']]
        ⟨[⟨[⟨placeholder_text [ 'A'], 0⟩]⟩], [], []⟩
        [([ 'A'], (some [ 'A'], 90))])[0]?).map (fun out => out.2.2.2.1) =
      some (([[ 'A'], [ 'B'], [ 'C']] : List (List Char)).toFinset.filter
        (fun c => ¬ ∃ e ∈ ([([ 'A'], (some [ 'A'], 90))] : Mapping),
          e.1 ∈ (([([ 'A'], (some [ 'A'], 90))] : Mapping).map Prod.fst).toFinset \
            (replace_placeholders ⟨[⟨[⟨placeholder_text [ 'A'], 0⟩]⟩], [], []⟩
              (fun _ => [ 'v']) [([ 'A'], (some [ 'A'], 90))]).2 ∧
          e.2.1 = some c)) :=
  generate_documents_unused_fields [[ 'A'], [ 'B'], [ 'C']]
    ⟨[⟨[⟨placeholder_text [ 'A'], 0⟩]⟩], [], []⟩ [([ 'A'], (some [ 'A'], 90))]
    (by decide) [fun _ => [ 'v']] (fun _ => [ 'v']) 0 rfl
